import Mathlib

/-!
Verification of the OSC-8 hyperlink filter (`src/main.rs`).

The program reads lines, finds path-like substrings with the regex
`(?:p1|p2|...)(?:/[^$\s;~:"\x1b]+)?` built from a prefix catalog, and wraps
each match in an OSC 8 terminal hyperlink whose URL is
`file://<hostname><absolute path>`.

We embed the program shallowly: strings are `List Char`, the compiled regex
is modelled by its matching semantics (`matchLen`: leftmost-first alternation
over the catalog, then a greedy optional `/`-led run of characters outside
the exclusion class), and `Regex::replace_all` by a fuel-indexed scan
(`rewriteAux`) that finds leftmost non-overlapping matches.  The Rust regex
crate uses leftmost-first (first-alternative-wins) match semantics and its
`\s` is the Unicode White_Space class; both are reflected below.
-/

namespace Osc8

/-- The Unicode White_Space code points, i.e. what the regex class `\s`
matches in the Rust regex crate (Unicode mode, the default). -/
def rustWhitespace (c : Char) : Bool :=
  [9, 10, 11, 12, 13, 32, 0x85, 0xA0, 0x1680,
   0x2000, 0x2001, 0x2002, 0x2003, 0x2004, 0x2005, 0x2006, 0x2007,
   0x2008, 0x2009, 0x200A, 0x2028, 0x2029, 0x202F, 0x205F, 0x3000].contains c.toNat

/-- Membership in the character class `[^$\s;~:"\x1b]` of `build_pattern`:
everything except `$`, whitespace, `;`, `~`, `:`, `"` and ESC (0x1B). -/
def pathChar (c : Char) : Bool :=
  !(c == '$' || rustWhitespace c || c == ';' || c == '~' || c == ':' ||
    c == '"' || c == '\x1b')

/-- The characters escaped by `regex::escape` (the regex-syntax
meta characters). -/
def regexMeta : List Char :=
  ['\\', '.', '+', '*', '?', '(', ')', '|', '[', ']', '\x7b', '\x7d',
   '^', '$', '#', '&', '-', '~']

/-- `regex::escape`: prepend a backslash to every meta character. -/
def regexEscape (s : String) : String :=
  ⟨s.data.flatMap (fun c => if regexMeta.contains c then ['\\', c] else [c])⟩

/-- The textual pattern built by `build_pattern` from the (already escaped)
prefixes: alternation over the catalog, then an optional `/`-led run of
characters outside the exclusion class.  Its matching semantics is
`matchLen` below. -/
def build_pattern (ps : List String) : String :=
  "(?:" ++ String.intercalate "|" ps ++ ")(?:/[^$\\s;~:\"\\x1b]+)?"

/-- First catalog entry (in catalog order, i.e. regex alternation
preference order) whose characters are a prefix of `s`. -/
def firstPref : List String → List Char → Option String
  | [], _ => none
  | p :: ps, s => if p.data.isPrefixOf s then some p else firstPref ps s

/-- Length of the match of the compiled pattern starting exactly at the head
of `s`, if any: the first alternative that matches (leftmost-first regex
semantics), extended greedily by `/` plus a nonempty maximal run of
`pathChar`s when present. -/
def matchLen (ps : List String) (s : List Char) : Option Nat :=
  match firstPref ps s with
  | none => none
  | some p =>
    match s.drop p.length with
    | '/' :: r2 =>
      if (r2.takeWhile pathChar).isEmpty then some p.length
      else some (p.length + 1 + (r2.takeWhile pathChar).length)
    | _ => some p.length

/-- `true` iff the compiled pattern matches anywhere in `s`. -/
def hasMatch (ps : List String) : List Char → Bool
  | [] => false
  | c :: rest => (matchLen ps (c :: rest)).isSome || hasMatch ps rest

/-- The constant `OSC` of the source: ESC followed by `]`. -/
def OSC : String := "\x1b]"

/-- The constant `BEL` of the source: 0x07. -/
def BEL : String := "\x07"

/-- `make_hyperlink`: `format!("{OSC}8;;{url}{BEL}{text}{OSC}8;;{BEL}")`. -/
def make_hyperlink (url text : String) : String :=
  OSC ++ "8;;" ++ url ++ BEL ++ text ++ OSC ++ "8;;" ++ BEL

/-- The five-character OSC 8 introducer ESC `]` `8` `;` `;`. -/
def oscOpen : List Char := ['\x1b', ']', '8', ';', ';']

/-- `make_hyperlink` at the `List Char` level. -/
def hyperlinkL (url text : List Char) : List Char :=
  oscOpen ++ url ++ '\x07' :: (text ++ oscOpen ++ ['\x07'])

/-- Home expansion step of `process_line`: if the match starts with `~/`,
replace the leading `~` by the home directory (plain string substitution). -/
def expandHome (home : String) : List Char → List Char
  | '~' :: '/' :: rest => home.data ++ ('/' :: rest)
  | m => m

/-- `Path::is_absolute` on Unix: the path starts with `/`. -/
def isAbsolute : List Char → Bool
  | '/' :: _ => true
  | _ => false

/-- `cwd.join(p)` for a non-absolute `p`, as a textual join (PathBuf push):
insert a `/` separator unless `cwd` is empty or already ends in `/`. -/
def joinCwd (cwd : String) (p : List Char) : List Char :=
  if cwd.data.isEmpty then p
  else if cwd.data.getLast? == some '/' then cwd.data ++ p
  else cwd.data ++ ('/' :: p)

/-- The absolutization step of `process_line`: home-expand, then keep an
absolute result as-is, otherwise join onto the current working directory. -/
def absPath (home cwd : String) (m : List Char) : List Char :=
  let e := expandHome home m
  if isAbsolute e then e else joinCwd cwd e

/-- The URL built for a match: `format!("file://{}{}", hostname, abs_path)`,
with no percent-encoding. -/
def urlFor (hostname home cwd : String) (m : List Char) : List Char :=
  "file://".data ++ hostname.data ++ absPath home cwd m

/-- `Regex::replace_all`: scan left to right; at each position, if a match
of length `n+1` begins there, emit `f` of the matched text and resume after
it (non-overlapping); otherwise copy one character.  The fuel argument (at
least the length of the list) only forces termination: every step consumes
at least one character.  The pattern never matches the empty string (every
catalog prefix is a nonempty literal), so the `some 0` branch is dead; it is
treated as no match. -/
def rewriteAux (ps : List String) (f : List Char → List Char) :
    Nat → List Char → List Char
  | _, [] => []
  | 0, s => s
  | fuel + 1, c :: rest =>
    match matchLen ps (c :: rest) with
    | some (n + 1) =>
      f ((c :: rest).take (n + 1)) ++
        rewriteAux ps f fuel ((c :: rest).drop (n + 1))
    | some 0 => c :: rewriteAux ps f fuel rest
    | none => c :: rewriteAux ps f fuel rest

/-- `process_line` at the `List Char` level: replace every match `m` by
`make_hyperlink (urlFor m) m`. -/
def process_lineL (ps : List String) (hostname home cwd : String)
    (s : List Char) : List Char :=
  rewriteAux ps (fun m => hyperlinkL (urlFor hostname home cwd m) m) s.length s

/-- `process_line(line, re, hostname, home, cwd)`: the compiled regex is
represented by the catalog `ps` it was built from. -/
def process_line (line : String) (ps : List String)
    (hostname home cwd : String) : String :=
  ⟨process_lineL ps hostname home cwd line.data⟩

/-- A segment of an output line: either literal pass-through text or one
hyperlink (URL, displayed text). -/
inductive Seg where
  | lit : List Char → Seg
  | link : List Char → List Char → Seg
deriving DecidableEq, Repr

/-- Segment decomposition of the scan of `rewriteAux`: the same recursion,
but recording matches as `Seg.link url matchedText` and unmatched characters
as literals instead of flattening everything into one string. -/
def segsAux (ps : List String) (u : List Char → List Char) :
    Nat → List Char → List Seg
  | _, [] => []
  | 0, s => [Seg.lit s]
  | fuel + 1, c :: rest =>
    match matchLen ps (c :: rest) with
    | some (n + 1) =>
      Seg.link (u ((c :: rest).take (n + 1))) ((c :: rest).take (n + 1)) ::
        segsAux ps u fuel ((c :: rest).drop (n + 1))
    | some 0 => Seg.lit [c] :: segsAux ps u fuel rest
    | none => Seg.lit [c] :: segsAux ps u fuel rest

/-- Segment decomposition of one processed line. -/
def segments (ps : List String) (hostname home cwd : String)
    (s : List Char) : List Seg :=
  segsAux ps (urlFor hostname home cwd) s.length s

/-- Rendering a segment: a literal is itself; a link is the full OSC 8
envelope `ESC ] 8 ; ; url BEL text ESC ] 8 ; ; BEL`. -/
def renderSeg : Seg → List Char
  | Seg.lit t => t
  | Seg.link u t => hyperlinkL u t

/-- Deleting the inserted envelope bytes from a segment: a literal is
itself; of a link only the displayed text remains. -/
def stripSeg : Seg → List Char
  | Seg.lit t => t
  | Seg.link _ t => t

/-- The links of a segment list, in order: (URL, displayed text) pairs. -/
def linksOf (l : List Seg) : List (List Char × List Char) :=
  l.filterMap (fun s => match s with
    | Seg.link u t => some (u, t)
    | _ => none)

/-- The 19 fixed system-directory prefixes of `get_prefixes`. -/
def fixedDirs : List String :=
  ["/bin", "/boot", "/dev", "/etc", "/home", "/lib", "/lib64",
   "/lost+found", "/mnt", "/opt", "/proc", "/root", "/run",
   "/sbin", "/srv", "/sys", "/tmp", "/usr", "/var"]

/-- `get_prefixes(cwd)`: the fixed prefixes, each regex-escaped, then the
escaped names of the current-directory entries, then the escaped tilde.
The directory listing is passed in as `entries`: `some names` when
`fs::read_dir` succeeds (with the UTF-8-decodable entry names), `none` when
it fails, in which case the loop body contributes nothing. -/
def get_prefixes (entries : Option (List String)) : List String :=
  fixedDirs.map regexEscape ++ (entries.getD []).map regexEscape ++
    [regexEscape "~"]

/-- The catalog of the source's `test_regex()` fixture (escaping the four
literals is the identity: none contains a meta character). -/
def testCatalog : List String := ["/tmp", "/home", "src", "~"]

/-! ### Helper lemmas -/

theorem firstPref_eq_some {ps : List String} {s : List Char} {p : String}
    (h : firstPref ps s = some p) : p ∈ ps ∧ p.data.isPrefixOf s = true := by
  induction ps with
  | nil => exact absurd h (by simp [firstPref])
  | cons q qs ih =>
    simp only [firstPref] at h
    split at h
    next hq =>
      cases h
      exact ⟨List.mem_cons_self _ _, hq⟩
    next hq =>
      obtain ⟨h1, h2⟩ := ih h
      exact ⟨List.mem_cons_of_mem _ h1, h2⟩

/-- Shape of a match: the first matching catalog entry, possibly extended by
`/` and a nonempty run of characters from the allowed class. -/
theorem matchLen_shape {ps : List String} {s : List Char} {n : Nat}
    (h : matchLen ps s = some n) :
    ∃ p, p ∈ ps ∧ ∃ t, s.take n = p.data ++ t ∧
      (t = [] ∨ ∃ run, run ≠ [] ∧ run.all pathChar = true ∧ t = '/' :: run) := by
  unfold matchLen at h
  split at h
  next hf => exact absurd h (by simp)
  next p hf =>
    obtain ⟨hmem, hpre⟩ := firstPref_eq_some hf
    have hpre2 : p.data <+: s := List.isPrefixOf_iff_prefix.mp hpre
    have htake : s.take p.data.length = p.data :=
      (List.prefix_iff_eq_take.mp hpre2).symm
    have hlen : p.length = p.data.length := rfl
    have hsplit : s = p.data ++ s.drop p.data.length := by
      conv_lhs => rw [← List.take_append_drop p.data.length s]
      rw [htake]
    split at h
    next r2 heq =>
      split at h
      next hE =>
        cases h
        refine ⟨p, hmem, [], ?_, Or.inl rfl⟩
        rw [List.append_nil, hlen]
        exact htake
      next hE =>
        cases h
        have hrun : r2.takeWhile pathChar <+: r2 := List.takeWhile_prefix _
        have hrtake : r2.take (r2.takeWhile pathChar).length =
            r2.takeWhile pathChar := (List.prefix_iff_eq_take.mp hrun).symm
        refine ⟨p, hmem, '/' :: r2.takeWhile pathChar, ?_,
          Or.inr ⟨r2.takeWhile pathChar, ?_, List.all_takeWhile, rfl⟩⟩
        · have h2 : s.drop p.data.length = '/' :: r2 := by
            rw [← hlen]; exact heq
          conv_lhs => rw [hsplit, h2]
          rw [hlen, Nat.add_assoc, List.take_append,
            Nat.add_comm 1 (r2.takeWhile pathChar).length,
            List.take_succ_cons, hrtake]
        · intro hnil
          rw [hnil] at hE
          simp at hE
    next hne =>
      cases h
      refine ⟨p, hmem, [], ?_, Or.inl rfl⟩
      rw [List.append_nil, hlen]
      exact htake

/-- Deleting the envelope of every link segment and concatenating recovers
the scanned text. -/
theorem segsAux_strip (ps : List String) (u : List Char → List Char) :
    ∀ fuel s, ((segsAux ps u fuel s).map stripSeg).flatten = s := by
  intro fuel
  induction fuel with
  | zero =>
    intro s
    cases s with
    | nil => rfl
    | cons c r => simp [segsAux, stripSeg]
  | succ m ih =>
    intro s
    cases s with
    | nil => rfl
    | cons c r =>
      simp only [segsAux]
      cases h : matchLen ps (c :: r) with
      | none => simp [stripSeg, ih r]
      | some n =>
        cases n with
        | zero => simp [stripSeg, ih r]
        | succ k =>
          simp [stripSeg, ih (r.drop k), List.take_append_drop]

/-- Rendering the segment decomposition and concatenating gives exactly the
rewritten line. -/
theorem segsAux_render (ps : List String) (u : List Char → List Char) :
    ∀ fuel s, ((segsAux ps u fuel s).map renderSeg).flatten =
      rewriteAux ps (fun m => hyperlinkL (u m) m) fuel s := by
  intro fuel
  induction fuel with
  | zero =>
    intro s
    cases s with
    | nil => rfl
    | cons c r => simp [segsAux, rewriteAux, renderSeg]
  | succ m ih =>
    intro s
    cases s with
    | nil => rfl
    | cons c r =>
      simp only [segsAux, rewriteAux]
      cases h : matchLen ps (c :: r) with
      | none => simp [renderSeg, ih r]
      | some n =>
        cases n with
        | zero => simp [renderSeg, ih r]
        | succ k => simp [renderSeg, ih (r.drop k)]

/-- A line in which the pattern never matches is rewritten to itself. -/
theorem rewriteAux_of_no_match (ps : List String) (f : List Char → List Char) :
    ∀ fuel s, hasMatch ps s = false → rewriteAux ps f fuel s = s := by
  intro fuel
  induction fuel with
  | zero =>
    intro s _
    cases s with
    | nil => rfl
    | cons c r => rfl
  | succ m ih =>
    intro s hs
    cases s with
    | nil => rfl
    | cons c r =>
      simp only [hasMatch, Bool.or_eq_false_iff] at hs
      have h1 : matchLen ps (c :: r) = none := by
        cases hm : matchLen ps (c :: r) with
        | none => rfl
        | some k => rw [hm] at hs; simp at hs
      simp [rewriteAux, h1, ih r hs.2]

/-! ### Claims -/

/-- C1: every match of the compiled pattern consists of exactly one catalog
prefix, optionally followed by a `/`-led run of one or more characters from
outside the exclusion class; on the line
`ESC[31mmodified: src/main.rs ESC[m` (with `src` in the catalog) the match
is exactly `src/main.rs` and both color escapes are preserved unchanged
outside the hyperlink envelope. -/
theorem spec_C1 :
    (∀ (ps : List String) (s : List Char) (n : Nat), matchLen ps s = some n →
      ∃ p, p ∈ ps ∧ ∃ t, s.take n = p.data ++ t ∧
        (t = [] ∨ ∃ run, run ≠ [] ∧ run.all pathChar = true ∧ t = '/' :: run)) ∧
    process_line "\x1b[31mmodified: src/main.rs \x1b[m" testCatalog
        "host" "/home/user" "/work" =
      "\x1b[31mmodified: " ++
        make_hyperlink "file://host/work/src/main.rs" "src/main.rs" ++
        " \x1b[m" :=
  ⟨fun _ _ _ h => matchLen_shape h, by decide⟩

/-- C1 witness: the match on `src/main.rs ` has length 11 and decomposes as
the catalog prefix `src` followed by the run `/main.rs`. -/
theorem spec_C1_witness :
    ∃ p, p ∈ testCatalog ∧ ∃ t, ("src/main.rs ".data).take 11 = p.data ++ t ∧
      (t = [] ∨ ∃ run, run ≠ [] ∧ run.all pathChar = true ∧ t = '/' :: run) :=
  spec_C1.1 testCatalog "src/main.rs ".data 11 (by decide)

/-- C2: the URL for a match is `file://` ++ hostname ++ absolute path, where
a home-expanded match that is already absolute is used as-is and a relative
one is joined onto the current working directory; with cwd `/work` the match
`src/main.rs` gives URL path `/work/src/main.rs`, and the absolute match
`/tmp/test.txt` gives URL path `/tmp/test.txt` unchanged. -/
theorem spec_C2 :
    (∀ (hostname home cwd : String) (m : List Char),
      isAbsolute (expandHome home m) = true →
      urlFor hostname home cwd m =
        "file://".data ++ hostname.data ++ expandHome home m) ∧
    (∀ (hostname home cwd : String) (m : List Char),
      isAbsolute (expandHome home m) = false →
      urlFor hostname home cwd m =
        "file://".data ++ hostname.data ++ joinCwd cwd (expandHome home m)) ∧
    process_line "src/main.rs" testCatalog "host" "/home/user" "/work" =
      make_hyperlink "file://host/work/src/main.rs" "src/main.rs" ∧
    process_line "/tmp/test.txt" testCatalog "host" "/home/user" "/work" =
      make_hyperlink "file://host/tmp/test.txt" "/tmp/test.txt" :=
  ⟨fun hostname home cwd m h => by simp [urlFor, absPath, h],
   fun hostname home cwd m h => by simp [urlFor, absPath, h],
   by decide, by decide⟩

/-- C2 witness: the two URL-construction branches at concrete matches. -/
theorem spec_C2_witness :
    urlFor "host" "/home/user" "/work" "/tmp/test.txt".data =
        "file://".data ++ "host".data ++
          expandHome "/home/user" "/tmp/test.txt".data ∧
    urlFor "host" "/home/user" "/work" "src/main.rs".data =
        "file://".data ++ "host".data ++
          joinCwd "/work" (expandHome "/home/user" "src/main.rs".data) :=
  ⟨spec_C2.1 "host" "/home/user" "/work" "/tmp/test.txt".data (by decide),
   spec_C2.2.1 "host" "/home/user" "/work" "src/main.rs".data (by decide)⟩

/-- C3: a match beginning with `~/` has its leading `~` replaced by the home
directory by plain string substitution before absolutization; with home
`/home/user`, the match `~/documents/file.txt` produces the URL path
`/home/user/documents/file.txt`. -/
theorem spec_C3 :
    (∀ (home : String) (m rest : List Char), m = '~' :: '/' :: rest →
      expandHome home m = home.data ++ '/' :: rest) ∧
    process_line "~/documents/file.txt" testCatalog "host" "/home/user"
        "/work" =
      make_hyperlink "file://host/home/user/documents/file.txt"
        "~/documents/file.txt" :=
  ⟨fun home m rest h => by rw [h]; rfl, by decide⟩

/-- C3 witness: home expansion at the concrete match `~/documents/file.txt`. -/
theorem spec_C3_witness :
    expandHome "/home/user" ('~' :: '/' :: "documents/file.txt".data) =
      "/home/user".data ++ '/' :: "documents/file.txt".data :=
  spec_C3.1 "/home/user" ('~' :: '/' :: "documents/file.txt".data)
    "documents/file.txt".data rfl

/-- C4: `make_hyperlink url text` is exactly the byte sequence
ESC `]` `8` `;` `;` url BEL text ESC `]` `8` `;` `;` BEL. -/
theorem spec_C4 (url text : String) :
    (make_hyperlink url text).data =
      ['\x1b', ']', '8', ';', ';'] ++ url.data ++ ['\x07'] ++ text.data ++
        ['\x1b', ']', '8', ';', ';', '\x07'] := by
  simp [make_hyperlink, OSC, BEL, String.data_append]

/-- C5: a line in which the compiled pattern finds no match is returned by
`process_line` unchanged. -/
theorem spec_C5 (line : String) (ps : List String)
    (hostname home cwd : String) (h : hasMatch ps line.data = false) :
    process_line line ps hostname home cwd = line := by
  unfold process_line process_lineL
  rw [rewriteAux_of_no_match ps _ line.data.length line.data h]

/-- C5 witness: a concrete line with no recognized prefix passes through. -/
theorem spec_C5_witness :
    process_line "just some text without paths" testCatalog "host"
        "/home/user" "/work" =
      "just some text without paths" :=
  spec_C5 "just some text without paths" testCatalog "host" "/home/user"
    "/work" (by decide)

/-- C6: the output of `process_line` is the concatenation of the rendered
segments (literals and full hyperlink envelopes); deleting the inserted
envelope bytes — keeping of each link only its displayed text, which is the
original matched substring verbatim — recovers exactly the input line. -/
theorem spec_C6 (line : String) (ps : List String)
    (hostname home cwd : String) :
    ((segments ps hostname home cwd line.data).map renderSeg).flatten =
        (process_line line ps hostname home cwd).data ∧
    ((segments ps hostname home cwd line.data).map stripSeg).flatten =
        line.data :=
  ⟨segsAux_render ps (urlFor hostname home cwd) line.data.length line.data,
   segsAux_strip ps (urlFor hostname home cwd) line.data.length line.data⟩

/-- C7: matching is a leftmost non-overlapping scan (the segment
decompositions concatenate back to the input, so no two matches share a
position), and the line `comparing /tmp/a.txt and /tmp/b.txt` produces
exactly two hyperlink envelopes, each wrapping its own matched text. -/
theorem spec_C7 :
    linksOf (segments testCatalog "host" "/home/user" "/work"
        "comparing /tmp/a.txt and /tmp/b.txt".data) =
      [("file://host/tmp/a.txt".data, "/tmp/a.txt".data),
       ("file://host/tmp/b.txt".data, "/tmp/b.txt".data)] ∧
    process_line "comparing /tmp/a.txt and /tmp/b.txt" testCatalog "host"
        "/home/user" "/work" =
      "comparing " ++ make_hyperlink "file://host/tmp/a.txt" "/tmp/a.txt" ++
        " and " ++ make_hyperlink "file://host/tmp/b.txt" "/tmp/b.txt" ∧
    ∀ (ps : List String) (hostname home cwd : String) (s : List Char),
      ((segments ps hostname home cwd s).map stripSeg).flatten = s :=
  ⟨by decide, by decide,
   fun ps hostname home cwd s =>
     segsAux_strip ps (urlFor hostname home cwd) s.length s⟩

/-- C8: `get_prefixes` never fails: whatever the directory listing yields,
the result is the 19 fixed escaped system prefixes, then the escaped entry
names, then the escaped tilde last; on listing failure it is exactly the
fixed prefixes plus the tilde, hence always non-empty. -/
theorem spec_C8 (entries : Option (List String)) :
    fixedDirs.length = 19 ∧
    (get_prefixes entries).take 19 = fixedDirs.map regexEscape ∧
    (get_prefixes entries).getLast? = some (regexEscape "~") ∧
    regexEscape "~" = "\\~" ∧
    get_prefixes none = fixedDirs.map regexEscape ++ ["\\~"] ∧
    get_prefixes entries ≠ [] := by
  refine ⟨by decide, ?_, ?_, by decide, by decide, ?_⟩
  · unfold get_prefixes
    rw [List.append_assoc]
    exact List.take_left' (by decide)
  · unfold get_prefixes
    exact List.getLast?_concat _
  · unfold get_prefixes
    intro hcontra
    simp at hcontra

/-- C9 counterexample: the claim's example is wrong — `src` is not a
substring of `sources` at all, so with the catalog of the test fixture the
pattern finds no match in `sources` and the line passes through unchanged,
rather than yielding a mid-word match `src`. -/
theorem spec_C9_cex :
    process_line "sources" testCatalog "host" "/home/user" "/work" =
        "sources" ∧
    hasMatch testCatalog "sources".data = false :=
  ⟨by decide, by decide⟩

/-- C9 (amended): the compiled pattern imposes no left word boundary: with
catalog prefix `/tmp`, the input `foo/tmp/bar` yields the match `/tmp/bar`
beginning inside the token `foo/tmp/bar`, and with dynamic prefix `src`, the
input `mysrc` yields the match `src` wrapped mid-word. -/
theorem spec_C9 :
    process_line "foo/tmp/bar" testCatalog "host" "/home/user" "/work" =
      "foo" ++ make_hyperlink "file://host/tmp/bar" "/tmp/bar" ∧
    linksOf (segments testCatalog "host" "/home/user" "/work"
        "foo/tmp/bar".data) =
      [("file://host/tmp/bar".data, "/tmp/bar".data)] ∧
    process_line "mysrc" testCatalog "host" "/home/user" "/work" =
      "my" ++ make_hyperlink "file://host/work/src" "src" :=
  ⟨by decide, by decide, by decide⟩

/-- C10: a match `~` not followed by `/` is not home-expanded; being
relative, it is joined onto the cwd, so the URL is
`file://<hostname><cwd>/~` while the displayed text stays `~`. -/
theorem spec_C10 :
    expandHome "/home/user" "~".data = "~".data ∧
    process_line "~" testCatalog "host" "/home/user" "/work" =
      make_hyperlink "file://host/work/~" "~" :=
  ⟨by decide, by decide⟩

end Osc8
